import Mathlib

/-!
# Verification of the 2048 game server core

Shallow embedding of the board-mutation engine (`internal/game/engine.go`,
`pkg/models`) and of the session-store behaviour of the websocket command
handlers (`internal/websocket/handlers.go`, `internal/database/gorm.go`,
`internal/cache/redis.go`), together with theorems settling the frozen
claims about the specification.

Go `int` (64-bit on the target platform) is modelled as unbounded `Int`
for the claims whose arguments keep every arithmetic step inside
`[-2^63, 2^63)`, where the two semantics agree cell for cell; the merge
doubling `line[i] * 2` and the score additions can wrap in the source,
and `wrapI64` / `mergeLineW` / `MoveW` below model that wrapping int64
arithmetic exactly for the claim whose hypothesis admits boundary
values.
The engine's injected random source is modelled by explicit oracle
parameters: a natural number for the `rng.Intn` draw and a boolean for
the `rng.Float32() < 0.1` test.
-/

namespace Game2048

/-- `models.Board`: a fixed 4×4 grid of integers (`type Board [4][4]int`),
modelled as a function from coordinates to cell values. -/
def Board := Fin 4 → Fin 4 → Int

instance : DecidableEq Board := by unfold Board; infer_instance

/-- `models.DisabledCell`: a `{Row, Col}` coordinate pair.  The engine is
always handed in-range coordinates (they come from `rand.Intn(BoardSize)`),
so the coordinates are modelled as `Fin 4`. -/
def DisabledCell := Fin 4 × Fin 4

instance : DecidableEq DisabledCell := by unfold DisabledCell; infer_instance

/-- `models.Direction`: `type Direction string`. -/
def Direction := String

instance : DecidableEq Direction := by unfold Direction; infer_instance

def DirectionUp : Direction := "up"
def DirectionDown : Direction := "down"
def DirectionLeft : Direction := "left"
def DirectionRight : Direction := "right"

/-- `Board.GetCell` reads a cell; with `Fin 4` coordinates the Go bounds
check never fails. -/
def GetCell (b : Board) (row col : Fin 4) : Int := b row col

/-- `Board.SetCell` writes one cell (in-range by typing). -/
def SetCell (b : Board) (row col : Fin 4) (value : Int) : Board :=
  fun i j => if i = row ∧ j = col then value else b i j

/-- `Board.IsDisabledCell`: true iff a disabled cell is present and has
exactly these coordinates. -/
def IsDisabledCell (row col : Fin 4) (disabledCell : Option DisabledCell) : Bool :=
  match disabledCell with
  | none => false
  | some d => decide (d.1 = row ∧ d.2 = col)

/-- `Board.GetEmptyCells`: all empty positions in row-major scan order. -/
def GetEmptyCells (b : Board) : List (Fin 4 × Fin 4) :=
  ((List.finRange 4).map (fun i =>
    ((List.finRange 4).filter (fun j => b i j = 0)).map (fun j => (i, j)))).flatten

/-- `Board.GetEmptyCellsExcluding`: empty positions, skipping the disabled
cell, in row-major scan order. -/
def GetEmptyCellsExcluding (b : Board) (disabledCell : Option DisabledCell) :
    List (Fin 4 × Fin 4) :=
  ((List.finRange 4).map (fun i =>
    ((List.finRange 4).filter (fun j =>
      b i j = 0 ∧ ¬(IsDisabledCell i j disabledCell = true))).map (fun j => (i, j)))).flatten

/-- `Board.IsFull`: no empty cells. -/
def IsFull (b : Board) : Bool := decide (GetEmptyCells b = [])

/-- The row `[b i 0, b i 1, b i 2, b i 3]`, as the engine's column loop
reads it. -/
def rowList (b : Board) (i : Fin 4) : List Int := [b i 0, b i 1, b i 2, b i 3]

/-- The column `[b 0 j, b 1 j, b 2 j, b 3 j]`, as the engine's row loop
reads it. -/
def colList (b : Board) (j : Fin 4) : List Int := [b 0 j, b 1 j, b 2 j, b 3 j]

/-- `Engine.mergeLine`: scan the compacted line once; two equal adjacent
tiles merge into their sum (skipping both), anything else is kept.
Returns the merged line and the score gained.  The doubling here is
exact; `mergeLineW` below is the same scan under Go's wrapping int64
arithmetic, which differs only when a merge reaches `2^63`. -/
def mergeLine : List Int → List Int × Int
  | [] => ([], 0)
  | [a] => ([a], 0)
  | a :: b :: rest =>
    if a = b then
      let r := mergeLine rest
      ((a + a) :: r.1, (a + a) + r.2)
    else
      let r := mergeLine (b :: rest)
      (a :: r.1, r.2)

/-- `Engine.moveLeft`: row by row, extract the non-zero values, merge them,
and write the merged line back left-aligned (cells past the merged line
become 0, matching `newValue = 0` in the source).  `moved` is set iff some
cell's written value differs from its previous value. -/
def moveLeft (b : Board) : Board × Int × Bool :=
  let nb : Board := fun i j =>
    (mergeLine ((rowList b i).filter (fun v => v ≠ 0))).1.getD j.val 0
  let score : Int :=
    ((List.finRange 4).map (fun i =>
      (mergeLine ((rowList b i).filter (fun v => v ≠ 0))).2)).sum
  (nb, score, decide (∃ i j, nb i j ≠ b i j))

/-- `Engine.moveRight`: like `moveLeft` but the line is extracted
right-to-left and written back at `actualCol = 3 - col`. -/
def moveRight (b : Board) : Board × Int × Bool :=
  let nb : Board := fun i j =>
    (mergeLine (((rowList b i).reverse).filter (fun v => v ≠ 0))).1.getD (3 - j.val) 0
  let score : Int :=
    ((List.finRange 4).map (fun i =>
      (mergeLine (((rowList b i).reverse).filter (fun v => v ≠ 0))).2)).sum
  (nb, score, decide (∃ i j, nb i j ≠ b i j))

/-- `Engine.moveUp`: column by column, top-aligned write-back. -/
def moveUp (b : Board) : Board × Int × Bool :=
  let nb : Board := fun i j =>
    (mergeLine ((colList b j).filter (fun v => v ≠ 0))).1.getD i.val 0
  let score : Int :=
    ((List.finRange 4).map (fun j =>
      (mergeLine ((colList b j).filter (fun v => v ≠ 0))).2)).sum
  (nb, score, decide (∃ i j, nb i j ≠ b i j))

/-- `Engine.moveDown`: column extracted bottom-to-top, written back at
`actualRow = 3 - row`. -/
def moveDown (b : Board) : Board × Int × Bool :=
  let nb : Board := fun i j =>
    (mergeLine (((colList b j).reverse).filter (fun v => v ≠ 0))).1.getD (3 - i.val) 0
  let score : Int :=
    ((List.finRange 4).map (fun j =>
      (mergeLine (((colList b j).reverse).filter (fun v => v ≠ 0))).2)).sum
  (nb, score, decide (∃ i j, nb i j ≠ b i j))

/-- `Engine.addRandomTile`: pick a uniformly random empty cell (the
`rng.Intn` draw is the oracle `idx`, reduced mod the list length so any
cell of the list is reachable and only those), and place a 4 there when
the `rng.Float32() < 0.1` oracle `four` fires, else a 2.  No empty cell:
no change. -/
def addRandomTile (b : Board) (idx : Nat) (four : Bool) : Board :=
  let emptyCells := GetEmptyCells b
  if emptyCells.length = 0 then b
  else
    let pos := emptyCells.getD (idx % emptyCells.length) (0, 0)
    SetCell b pos.1 pos.2 (if four then 4 else 2)

/-- `Engine.addRandomTileExcluding`: as `addRandomTile` but the disabled
cell is never a target. -/
def addRandomTileExcluding (b : Board) (disabledCell : Option DisabledCell)
    (idx : Nat) (four : Bool) : Board :=
  let emptyCells := GetEmptyCellsExcluding b disabledCell
  if emptyCells.length = 0 then b
  else
    let pos := emptyCells.getD (idx % emptyCells.length) (0, 0)
    SetCell b pos.1 pos.2 (if four then 4 else 2)

/-- `Engine.Move`: dispatch on the direction string (a `switch` with no
default branch: an unrecognised direction leaves the copied board, the
zero score and `moved=false` untouched), then spawn one random tile iff
the move flag is set. -/
def Move (b : Board) (direction : Direction) (idx : Nat) (four : Bool) :
    Board × Int × Bool :=
  let r :=
    if direction = DirectionUp then moveUp b
    else if direction = DirectionDown then moveDown b
    else if direction = DirectionLeft then moveLeft b
    else if direction = DirectionRight then moveRight b
    else (b, 0, false)
  if r.2.2 then (addRandomTile r.1 idx four, r.2.1, r.2.2) else r

/-!
## The disabled-cell move variants

In the source each `move*WithDisabled` scans a row/column in travel order,
accumulating the `(position, value)` pairs of the non-zero, non-disabled
cells of the current segment; hitting the disabled cell (a barrier)
processes the accumulated segment, and the leftover segment is processed
after the loop.  Processing a segment merges its values and writes merged
value `i` back at `positions[i]` — the original position of the `i`-th
tile of the segment, NOT a compacted position — then zeroes the remaining
original positions.  Because the write-back loop walks the strictly
ordered `positions` in collection order, every `GetCell` it performs still
reads the original value of that cell (earlier iterations wrote earlier
positions only); the pure model below therefore takes all reads from the
segment itself.

The four variants differ in the `moved` test of the placement loop:
`moveLeftWithDisabled` compares `positions[i]` (an index!) with the cell's
current value, while the right/up/down variants compare the cell's current
value with the merged value being written.  `chk` abstracts that one line.
-/

/-- Placement check of `moveLeftWithDisabled`:
`positions[i] != board.GetCell(row, positions[i])` — the segment position
index compared against the original cell value. -/
def chkLeft (pv : Fin 4 × Int) (_merged : Int) : Bool :=
  decide ((pv.1.val : Int) ≠ pv.2)

/-- Placement check of `moveRight/Up/DownWithDisabled`:
`board.GetCell(..) != val` — the original cell value compared against the
merged value being written. -/
def chkStd (pv : Fin 4 × Int) (merged : Int) : Bool :=
  decide (pv.2 ≠ merged)

/-- Process one segment (the body under `if len(line) > 0`): merge the
segment's values, produce the write-backs (merged values at the first
original positions, zeroes at the remaining original positions), the
score, and the `moved` contribution. -/
def processSeg (chk : Fin 4 × Int → Int → Bool) (seg : List (Fin 4 × Int)) :
    List (Fin 4 × Int) × Int × Bool :=
  let m := mergeLine (seg.map Prod.snd)
  let placed := (seg.map Prod.fst).zip m.1
  let cleared := ((seg.map Prod.fst).drop m.1.length).map (fun p => (p, (0 : Int)))
  let movedP := ((seg.zip m.1).map (fun x => chk x.1 x.2)).any id
  let movedC := ((seg.drop m.1.length).map (fun pv => decide (pv.2 ≠ 0))).any id
  (placed ++ cleared, m.2, movedP || movedC)

/-- The scan loop of a `move*WithDisabled` line: `cells` is the line in
travel order with positions attached, `isBar p` is the
`board.IsDisabledCell` test, `acc` the accumulated segment.  Returns all
write-backs of the line, the line's score and its `moved` flag. -/
def scanSegs (chk : Fin 4 × Int → Int → Bool) (isBar : Fin 4 → Bool) :
    List (Fin 4 × Int) → List (Fin 4 × Int) → List (Fin 4 × Int) × Int × Bool
  | [], acc => processSeg chk acc
  | (p, v) :: rest, acc =>
    if isBar p then
      let r1 := processSeg chk acc
      let r2 := scanSegs chk isBar rest []
      (r1.1 ++ r2.1, r1.2.1 + r2.2.1, r1.2.2 || r2.2.2)
    else if v ≠ 0 then scanSegs chk isBar rest (acc ++ [(p, v)])
    else scanSegs chk isBar rest acc

/-- Apply the write-backs of one line: positions present in the
assignment list take their new value, every other cell keeps its value. -/
def applyAssigns (assigns : List (Fin 4 × Int)) (orig : Fin 4 → Int) :
    Fin 4 → Int :=
  fun k => ((assigns.lookup k).getD (orig k))

/-- `Engine.moveLeftWithDisabled`: rows scanned left to right.  Note: the
source has no `disabledCell == nil` shortcut here (unlike the other three
variants), so even without an obstacle the segment logic runs. -/
def moveLeftWithDisabled (b : Board) (disabledCell : Option DisabledCell) :
    Board × Int × Bool :=
  let res := fun (i : Fin 4) =>
    scanSegs chkLeft (fun p => IsDisabledCell i p disabledCell)
      ((List.finRange 4).map (fun j => (j, b i j))) []
  let nb : Board := fun i j => applyAssigns (res i).1 (b i) j
  let score : Int := ((List.finRange 4).map (fun i => (res i).2.1)).sum
  let moved : Bool := ((List.finRange 4).map (fun i => (res i).2.2)).any id
  (nb, score, moved)

/-- `Engine.moveRightWithDisabled`: delegates to `moveRight` when no cell
is disabled, otherwise scans rows right to left. -/
def moveRightWithDisabled (b : Board) (disabledCell : Option DisabledCell) :
    Board × Int × Bool :=
  match disabledCell with
  | none => moveRight b
  | some _ =>
    let res := fun (i : Fin 4) =>
      scanSegs chkStd (fun p => IsDisabledCell i p disabledCell)
        (((List.finRange 4).map (fun j => (j, b i j))).reverse) []
    let nb : Board := fun i j => applyAssigns (res i).1 (b i) j
    let score : Int := ((List.finRange 4).map (fun i => (res i).2.1)).sum
    let moved : Bool := ((List.finRange 4).map (fun i => (res i).2.2)).any id
    (nb, score, moved)

/-- `Engine.moveUpWithDisabled`: delegates to `moveUp` when no cell is
disabled, otherwise scans columns top to bottom. -/
def moveUpWithDisabled (b : Board) (disabledCell : Option DisabledCell) :
    Board × Int × Bool :=
  match disabledCell with
  | none => moveUp b
  | some _ =>
    let res := fun (j : Fin 4) =>
      scanSegs chkStd (fun p => IsDisabledCell p j disabledCell)
        ((List.finRange 4).map (fun i => (i, b i j))) []
    let nb : Board := fun i j => applyAssigns (res j).1 (fun k => b k j) i
    let score : Int := ((List.finRange 4).map (fun j => (res j).2.1)).sum
    let moved : Bool := ((List.finRange 4).map (fun j => (res j).2.2)).any id
    (nb, score, moved)

/-- `Engine.moveDownWithDisabled`: delegates to `moveDown` when no cell is
disabled, otherwise scans columns bottom to top. -/
def moveDownWithDisabled (b : Board) (disabledCell : Option DisabledCell) :
    Board × Int × Bool :=
  match disabledCell with
  | none => moveDown b
  | some _ =>
    let res := fun (j : Fin 4) =>
      scanSegs chkStd (fun p => IsDisabledCell p j disabledCell)
        (((List.finRange 4).map (fun i => (i, b i j))).reverse) []
    let nb : Board := fun i j => applyAssigns (res j).1 (fun k => b k j) i
    let score : Int := ((List.finRange 4).map (fun j => (res j).2.1)).sum
    let moved : Bool := ((List.finRange 4).map (fun j => (res j).2.2)).any id
    (nb, score, moved)

/-- `Engine.MoveWithDisabledCell`: dispatch (again a `switch` with no
default), then spawn one tile away from the disabled cell iff moved. -/
def MoveWithDisabledCell (b : Board) (direction : Direction)
    (disabledCell : Option DisabledCell) (idx : Nat) (four : Bool) :
    Board × Int × Bool :=
  let r :=
    if direction = DirectionUp then moveUpWithDisabled b disabledCell
    else if direction = DirectionDown then moveDownWithDisabled b disabledCell
    else if direction = DirectionLeft then moveLeftWithDisabled b disabledCell
    else if direction = DirectionRight then moveRightWithDisabled b disabledCell
    else (b, 0, false)
  if r.2.2 then (addRandomTileExcluding r.1 disabledCell idx four, r.2.1, r.2.2)
  else r

/-- `Engine.IsGameOver`: not over while an empty cell exists; otherwise
over iff no trial move reports `moved`.  The trial moves consume the
engine's rng in the source; the `moved` component never depends on the
draws (the spawn happens after `moved` is computed — see
`Move_moved_rng_irrelevant`), so the trials here fix the oracle. -/
def IsGameOver (b : Board) : Bool :=
  if IsFull b = false then false
  else
    !([(Move b DirectionUp 0 false).2.2, (Move b DirectionDown 0 false).2.2,
       (Move b DirectionLeft 0 false).2.2, (Move b DirectionRight 0 false).2.2].any id)

/-- `Engine.IsGameOverWithDisabledCell`: not over while an empty
non-disabled cell exists; otherwise over iff no trial move reports
`moved` (oracle fixed, see `MoveWithDisabledCell_moved_rng_irrelevant`). -/
def IsGameOverWithDisabledCell (b : Board) (disabledCell : Option DisabledCell) : Bool :=
  if 0 < (GetEmptyCellsExcluding b disabledCell).length then false
  else
    !([(MoveWithDisabledCell b DirectionUp disabledCell 0 false).2.2,
       (MoveWithDisabledCell b DirectionDown disabledCell 0 false).2.2,
       (MoveWithDisabledCell b DirectionLeft disabledCell 0 false).2.2,
       (MoveWithDisabledCell b DirectionRight disabledCell 0 false).2.2].any id)

theorem Move_moved_rng_irrelevant (b : Board) (d : Direction)
    (idx idx' : Nat) (four four' : Bool) :
    (Move b d idx four).2.2 = (Move b d idx' four').2.2 := by
  unfold Move
  cases h : (if d = DirectionUp then moveUp b
    else if d = DirectionDown then moveDown b
    else if d = DirectionLeft then moveLeft b
    else if d = DirectionRight then moveRight b
    else (b, 0, false)).2.2 <;> simp [h]

theorem MoveWithDisabledCell_moved_rng_irrelevant (b : Board) (d : Direction)
    (dis : Option DisabledCell) (idx idx' : Nat) (four four' : Bool) :
    (MoveWithDisabledCell b d dis idx four).2.2
      = (MoveWithDisabledCell b d dis idx' four').2.2 := by
  unfold MoveWithDisabledCell
  cases h : (if d = DirectionUp then moveUpWithDisabled b dis
    else if d = DirectionDown then moveDownWithDisabled b dis
    else if d = DirectionLeft then moveLeftWithDisabled b dis
    else if d = DirectionRight then moveRightWithDisabled b dis
    else (b, 0, false)).2.2 <;> simp [h]

/-!
## Concrete boards used by witnesses and failing-input theorems
-/

/-- Build a board from a row-major list of rows (missing entries are 0). -/
def mkBoard (l : List (List Int)) : Board :=
  fun i j => ((l.getD i.val []).getD j.val 0)

/-- A single tile 2 at row 0, column 1. -/
def boardLoneTile : Board := mkBoard [[0, 2, 0, 0]]

/-- Row 0 is `[2,0,2,0]` (the spec's obstacle-barrier test row). -/
def boardBarrier : Board := mkBoard [[2, 0, 2, 0]]

/-- Row 0 is `[2,2,2,0]` (the spec's merge-tie-break test row). -/
def boardRow222 : Board := mkBoard [[2, 2, 2, 0]]

/-- A full checkerboard of 2s and 4s: no empty cell, no adjacent equal
pair in any direction. -/
def boardFullCheck : Board :=
  fun i j => if (i.val + j.val) % 2 = 0 then 2 else 4

/-- The full checkerboard with the corner cell (0,0) emptied: the
challenge-mode stuck position once (0,0) is the disabled cell. -/
def boardChFull : Board :=
  fun i j => if i = 0 ∧ j = 0 then 0 else if (i.val + j.val) % 2 = 0 then 2 else 4

/-- C1.  Failing-input evaluation: with the obstacle at (3,3) — present
but outside row 0 — and row 0 equal to `[0,2,0,0]`, a left move is
claimed to compress the 2 to the leading edge (column 0).  The code's
`moveLeftWithDisabled` instead leaves the whole board unchanged (the tile
stays at column 1) while reporting `moved = true`. -/
theorem C1_disabled_left_move_does_not_compact :
    (moveLeftWithDisabled boardLoneTile (some (3, 3))).1 = boardLoneTile ∧
    boardLoneTile 0 0 = 0 ∧ boardLoneTile 0 1 = 2 ∧
    (moveLeftWithDisabled boardLoneTile (some (3, 3))).2.2 = true := by
  decide

/-- C3.  Failing-input evaluation: row `[2,0,2,0]` with the obstacle at
column 1 of that row, moved left.  The board is left exactly unchanged
(as the claim says), but the operation reports `moved = true` where the
claim requires `moved = false`: the source's placement check compares the
position index with the cell value (`positions[i] != board.GetCell(...)`),
so the tile 2 sitting at column 0 trips it (`0 ≠ 2`). -/
theorem C3_obstacle_row_reports_moved :
    (moveLeftWithDisabled boardBarrier (some (0, 1))).1 = boardBarrier ∧
    (moveLeftWithDisabled boardBarrier (some (0, 1))).2.2 = true := by
  decide

/-- C2.  Failing-input evaluation: the challenge board `boardChFull` with
disabled cell (0,0) has no empty non-obstacle cell, and none of the four
trial moves changes the board — by the claim the terminal check must
return `over = true` — yet `IsGameOverWithDisabledCell` returns `false`,
because the left trial move spuriously reports `moved = true` on the
unchanged board. -/
theorem C2_terminal_check_misses_stuck_board :
    (GetEmptyCellsExcluding boardChFull (some (0, 0))).length = 0 ∧
    (MoveWithDisabledCell boardChFull DirectionUp (some (0, 0)) 0 false).1 = boardChFull ∧
    (MoveWithDisabledCell boardChFull DirectionDown (some (0, 0)) 0 false).1 = boardChFull ∧
    (MoveWithDisabledCell boardChFull DirectionLeft (some (0, 0)) 0 false).1 = boardChFull ∧
    (MoveWithDisabledCell boardChFull DirectionRight (some (0, 0)) 0 false).1 = boardChFull ∧
    IsGameOverWithDisabledCell boardChFull (some (0, 0)) = false := by
  decide

/-- C6.  Failing-input evaluation: on the stuck challenge board, a left
move returns `moved = true` but the resulting board is identical to the
input — no tile was spawned (there is no empty non-obstacle cell to hold
one), contradicting the claim that `moved = true` implies exactly one
spawned tile. -/
theorem C6_moved_true_without_spawn :
    (MoveWithDisabledCell boardChFull DirectionLeft (some (0, 0)) 0 false).2.2 = true ∧
    (MoveWithDisabledCell boardChFull DirectionLeft (some (0, 0)) 0 false).1 = boardChFull := by
  decide

/-- C5.  Merge tie-break: in any board whose row `i` is `[2,2,2,0]`, the
plain left move rewrites that row to `[4,2,0,0]` (this is the board before
the spawned tile is placed) and that row's summand of `scoreGained` — the
merge score of its line — is exactly 4: only the pair nearest the leading
edge merges. -/
theorem C5_merge_tie_break (b : Board) (i : Fin 4)
    (h : rowList b i = [2, 2, 2, 0]) :
    (∀ j : Fin 4, (moveLeft b).1 i j = [4, 2, 0, 0].getD j.val 0) ∧
    (mergeLine ((rowList b i).filter (fun v => v ≠ 0))).2 = 4 := by
  simp only [rowList, List.cons.injEq, and_true] at h
  obtain ⟨h0, h1, h2, h3⟩ := h
  constructor
  · intro j
    simp only [moveLeft, rowList, h0, h1, h2, h3]
    fin_cases j <;> rfl
  · simp only [rowList, h0, h1, h2, h3]
    rfl

/-- Witness for C5 at the concrete board `boardRow222`. -/
theorem C5_merge_tie_break_witness :
    rowList boardRow222 0 = [2, 2, 2, 0] ∧
    ((∀ j : Fin 4, (moveLeft boardRow222).1 0 j = [4, 2, 0, 0].getD j.val 0) ∧
     (mergeLine ((rowList boardRow222 0).filter (fun v => v ≠ 0))).2 = 4) :=
  ⟨by decide, C5_merge_tie_break boardRow222 0 (by decide)⟩

/-- C10.  A direction string that is none of "up", "down", "left",
"right" falls through the `switch` in both `Move` and
`MoveWithDisabledCell`: the input board is returned unchanged, with
`scoreGained = 0`, `moved = false`, and hence no spawned tile. -/
theorem C10_unknown_direction_is_noop (b : Board) (d : Direction)
    (dis : Option DisabledCell) (idx : Nat) (four : Bool)
    (hu : d ≠ DirectionUp) (hd : d ≠ DirectionDown)
    (hl : d ≠ DirectionLeft) (hr : d ≠ DirectionRight) :
    Move b d idx four = (b, 0, false) ∧
    MoveWithDisabledCell b d dis idx four = (b, 0, false) := by
  constructor
  · simp [Move, hu, hd, hl, hr]
  · simp [MoveWithDisabledCell, hu, hd, hl, hr]

/-- Witness for C10: the direction "diagonal" is a silent no-op. -/
theorem C10_unknown_direction_is_noop_witness :
    Move boardRow222 "diagonal" 0 false = (boardRow222, 0, false) ∧
    MoveWithDisabledCell boardRow222 "diagonal" (some (0, 0)) 0 false
      = (boardRow222, 0, false) :=
  C10_unknown_direction_is_noop boardRow222 "diagonal" (some (0, 0)) 0 false
    (by decide) (by decide) (by decide) (by decide)

/-!
## Structural lemmas about `mergeLine`
-/

theorem mergeLine_cons_cons_eq (b : Int) (rest : List Int) :
    mergeLine (b :: b :: rest)
      = ((b + b) :: (mergeLine rest).1, b + b + (mergeLine rest).2) := by
  simp [mergeLine]

theorem mergeLine_cons_cons_ne (a b : Int) (rest : List Int) (hab : a ≠ b) :
    mergeLine (a :: b :: rest)
      = (a :: (mergeLine (b :: rest)).1, (mergeLine (b :: rest)).2) := by
  simp [mergeLine, hab]

theorem mergeLine_length_le (l : List Int) :
    (mergeLine l).1.length ≤ l.length := by
  induction l using mergeLine.induct with
  | case1 => simp [mergeLine]
  | case2 a => simp [mergeLine]
  | case3 b rest ih =>
    rw [mergeLine_cons_cons_eq]
    simp only [List.length_cons]
    omega
  | case4 a b rest hab ih =>
    rw [mergeLine_cons_cons_ne a b rest hab]
    simp only [List.length_cons] at ih ⊢
    omega

theorem mergeLine_eq_of_length (l : List Int)
    (h : (mergeLine l).1.length = l.length) :
    (mergeLine l).1 = l ∧ (mergeLine l).2 = 0 := by
  induction l using mergeLine.induct with
  | case1 => simp [mergeLine]
  | case2 a => simp [mergeLine]
  | case3 b rest ih =>
    exfalso
    have hle := mergeLine_length_le rest
    rw [mergeLine_cons_cons_eq] at h
    simp only [List.length_cons] at h
    omega
  | case4 a b rest hab ih =>
    rw [mergeLine_cons_cons_ne a b rest hab] at h ⊢
    simp only [List.length_cons] at h
    have := ih (by simp only [List.length_cons]; omega)
    simp [this.1, this.2]

theorem mergeLine_nonzero (l : List Int) (hl : ∀ x ∈ l, x ≠ 0) :
    ∀ y ∈ (mergeLine l).1, y ≠ 0 := by
  induction l using mergeLine.induct with
  | case1 => simp [mergeLine]
  | case2 a => simpa [mergeLine] using hl
  | case3 b rest ih =>
    rw [mergeLine_cons_cons_eq]
    intro y hy
    rcases List.mem_cons.mp hy with h | h
    · have hb : b ≠ 0 := hl b (by simp)
      subst h
      intro hc
      apply hb
      omega
    · exact ih (fun x hx => hl x (by simp [hx])) y h
  | case4 a b rest hab ih =>
    rw [mergeLine_cons_cons_ne a b rest hab]
    intro y hy
    rcases List.mem_cons.mp hy with h | h
    · subst h; exact hl y (by simp)
    · refine ih (fun x hx => hl x ?_) y h
      simp only [List.mem_cons] at hx ⊢
      tauto

/-- Reading a non-zero-valued list of length at most 4 back out of its
zero-padded 4-cell row recovers the list. -/
theorem filter_pad_eq (m : List Int) (hnz : ∀ y ∈ m, y ≠ 0) (hlen : m.length ≤ 4) :
    ([m.getD 0 0, m.getD 1 0, m.getD 2 0, m.getD 3 0].filter (fun v => v ≠ 0)) = m := by
  match m, hlen with
  | [], _ => simp
  | [a], _ =>
    have ha : a ≠ 0 := hnz a (by simp)
    simp [ha]
  | [a, b], _ =>
    have ha : a ≠ 0 := hnz a (by simp)
    have hb : b ≠ 0 := hnz b (by simp)
    simp [ha, hb]
  | [a, b, c], _ =>
    have ha : a ≠ 0 := hnz a (by simp)
    have hb : b ≠ 0 := hnz b (by simp)
    have hc : c ≠ 0 := hnz c (by simp)
    simp [ha, hb, hc]
  | [a, b, c, d], _ =>
    have ha : a ≠ 0 := hnz a (by simp)
    have hb : b ≠ 0 := hnz b (by simp)
    have hc : c ≠ 0 := hnz c (by simp)
    have hd : d ≠ 0 := hnz d (by simp)
    simp [ha, hb, hc, hd]

/-- Elements surviving the non-zero filter are non-zero. -/
theorem filter_nonzero_mem (r : List Int) :
    ∀ x ∈ r.filter (fun v => v ≠ 0), x ≠ 0 := by
  intro x hx
  have := List.of_mem_filter hx
  simpa using this

/-- If writing a line's merged-and-padded form back reproduces the line's
original 4 cells exactly, then no merge happened: the merged line is the
compacted line itself and the merge score is 0. -/
theorem line_unchanged_of_pad_eq (r : List Int) (hr : r.length = 4)
    (h : [(mergeLine (r.filter (fun v => v ≠ 0))).1.getD 0 0,
          (mergeLine (r.filter (fun v => v ≠ 0))).1.getD 1 0,
          (mergeLine (r.filter (fun v => v ≠ 0))).1.getD 2 0,
          (mergeLine (r.filter (fun v => v ≠ 0))).1.getD 3 0] = r) :
    (mergeLine (r.filter (fun v => v ≠ 0))).1 = r.filter (fun v => v ≠ 0) ∧
    (mergeLine (r.filter (fun v => v ≠ 0))).2 = 0 := by
  set l := r.filter (fun v => v ≠ 0) with hl
  have hlen_l : l.length ≤ 4 := by
    calc l.length ≤ r.length := List.length_filter_le _ _
    _ = 4 := hr
  have hm_le : (mergeLine l).1.length ≤ l.length := mergeLine_length_le l
  have hm_nz : ∀ y ∈ (mergeLine l).1, y ≠ 0 :=
    mergeLine_nonzero l (filter_nonzero_mem r)
  have hpad := filter_pad_eq (mergeLine l).1 hm_nz (le_trans hm_le hlen_l)
  have hfil : l = (mergeLine l).1 := by
    conv_lhs => rw [hl, ← h]
    exact hpad
  have hlen_eq : (mergeLine l).1.length = l.length := by rw [← hfil]
  have := mergeLine_eq_of_length l hlen_eq
  exact ⟨hfil.symm, this.2⟩

theorem moveLeft_not_moved (b : Board) (h : (moveLeft b).2.2 = false) :
    (moveLeft b).1 = b ∧ (moveLeft b).2.1 = 0 := by
  simp only [moveLeft, decide_eq_false_iff_not, not_exists, not_not] at h ⊢
  refine ⟨funext fun i => funext fun j => h i j, ?_⟩
  refine List.sum_eq_zero ?_
  intro x hx
  obtain ⟨i, -, rfl⟩ := List.mem_map.mp hx
  refine (line_unchanged_of_pad_eq (rowList b i) (by simp [rowList]) ?_).2
  simp only [rowList, List.cons.injEq, and_true]
  exact ⟨h i 0, h i 1, h i 2, h i 3⟩

theorem rowList_reverse (b : Board) (i : Fin 4) :
    (rowList b i).reverse = [b i 3, b i 2, b i 1, b i 0] := by
  simp [rowList]

theorem colList_reverse (b : Board) (j : Fin 4) :
    (colList b j).reverse = [b 3 j, b 2 j, b 1 j, b 0 j] := by
  simp [colList]

theorem moveRight_not_moved (b : Board) (h : (moveRight b).2.2 = false) :
    (moveRight b).1 = b ∧ (moveRight b).2.1 = 0 := by
  simp only [moveRight, decide_eq_false_iff_not, not_exists, not_not] at h ⊢
  refine ⟨funext fun i => funext fun j => h i j, ?_⟩
  refine List.sum_eq_zero ?_
  intro x hx
  obtain ⟨i, -, rfl⟩ := List.mem_map.mp hx
  rw [rowList_reverse]
  refine (line_unchanged_of_pad_eq [b i 3, b i 2, b i 1, b i 0] (by simp) ?_).2
  simp only [List.cons.injEq, and_true]
  exact ⟨h i 3, h i 2, h i 1, h i 0⟩

theorem moveUp_not_moved (b : Board) (h : (moveUp b).2.2 = false) :
    (moveUp b).1 = b ∧ (moveUp b).2.1 = 0 := by
  simp only [moveUp, decide_eq_false_iff_not, not_exists, not_not] at h ⊢
  refine ⟨funext fun i => funext fun j => h i j, ?_⟩
  refine List.sum_eq_zero ?_
  intro x hx
  obtain ⟨j, -, rfl⟩ := List.mem_map.mp hx
  refine (line_unchanged_of_pad_eq (colList b j) (by simp [colList]) ?_).2
  simp only [colList, List.cons.injEq, and_true]
  exact ⟨h 0 j, h 1 j, h 2 j, h 3 j⟩

theorem moveDown_not_moved (b : Board) (h : (moveDown b).2.2 = false) :
    (moveDown b).1 = b ∧ (moveDown b).2.1 = 0 := by
  simp only [moveDown, decide_eq_false_iff_not, not_exists, not_not] at h ⊢
  refine ⟨funext fun i => funext fun j => h i j, ?_⟩
  refine List.sum_eq_zero ?_
  intro x hx
  obtain ⟨j, -, rfl⟩ := List.mem_map.mp hx
  rw [colList_reverse]
  refine (line_unchanged_of_pad_eq [b 3 j, b 2 j, b 1 j, b 0 j] (by simp) ?_).2
  simp only [List.cons.injEq, and_true]
  exact ⟨h 3 j, h 2 j, h 1 j, h 0 j⟩

theorem lookup_mem :
    ∀ (l : List (Fin 4 × Int)) (k : Fin 4) (w : Int),
      l.lookup k = some w → (k, w) ∈ l := by
  intro l
  induction l with
  | nil => intro k w h; simp [List.lookup] at h
  | cons p rest ih =>
    intro k w h
    rcases p with ⟨a, b⟩
    by_cases hk : k = a
    · subst hk
      rw [List.lookup_cons_self] at h
      simp at h
      simp [h]
    · simp only [List.lookup] at h
      rw [show (k == a) = false from by simpa using hk] at h
      exact List.mem_cons_of_mem _ (ih k w h)

theorem zip_unzip_pairs (l : List (Fin 4 × Int)) :
    (l.map Prod.fst).zip (l.map Prod.snd) = l := by
  rw [List.zip_map']
  simp

/-- A segment whose `moved` contribution is false is written back exactly
as it was, with score 0: the clear-loop check fires whenever a merge
shortened the line (all collected values are non-zero), so no merge
happened and the placements rewrite the original values. -/
theorem processSeg_not_moved (chk : Fin 4 × Int → Int → Bool)
    (seg : List (Fin 4 × Int)) (hnz : ∀ pv ∈ seg, pv.2 ≠ 0)
    (h : (processSeg chk seg).2.2 = false) :
    processSeg chk seg = (seg, 0, false) := by
  have hC : ((seg.drop (mergeLine (seg.map Prod.snd)).1.length).map
      (fun pv => decide (pv.2 ≠ 0))).any id = false := by
    simp only [processSeg, Bool.or_eq_false_iff] at h
    exact h.2
  have hdrop : seg.drop (mergeLine (seg.map Prod.snd)).1.length = [] := by
    rcases hd : seg.drop (mergeLine (seg.map Prod.snd)).1.length with _ | ⟨pv, tl⟩
    · rfl
    · exfalso
      have hpv : pv ∈ seg := by
        have : pv ∈ seg.drop (mergeLine (seg.map Prod.snd)).1.length := by
          simp [hd]
        exact List.mem_of_mem_drop this
      rw [hd] at hC
      simp only [List.map_cons, List.any_cons, id_eq, Bool.or_eq_false_iff,
        decide_eq_false_iff_not, not_not] at hC
      exact hnz pv hpv hC.1
  have hlen : (mergeLine (seg.map Prod.snd)).1.length = seg.length := by
    have h1 := mergeLine_length_le (seg.map Prod.snd)
    have h2 := List.drop_eq_nil_iff.mp hdrop
    simp only [List.length_map] at h1
    omega
  have heq := mergeLine_eq_of_length (seg.map Prod.snd)
    (by simpa using hlen)
  have h1 : (processSeg chk seg).1 = seg := by
    simp only [processSeg]
    rw [heq.1, zip_unzip_pairs]
    rw [show (List.map Prod.snd seg).length = (List.map Prod.fst seg).length from by simp]
    rw [List.drop_length]
    simp
  have h2 : (processSeg chk seg).2.1 = 0 := by
    simp only [processSeg]
    exact heq.2
  have hsplit : processSeg chk seg
      = ((processSeg chk seg).1, (processSeg chk seg).2.1, (processSeg chk seg).2.2) := rfl
  rw [hsplit, h1, h2, h]

/-- If a whole scanned line reports no movement, its total score is 0 and
every write-back pair already occurs in the accumulated segment or in the
scanned cells. -/
theorem scanSegs_not_moved (chk : Fin 4 × Int → Int → Bool) (isBar : Fin 4 → Bool) :
    ∀ (cells acc : List (Fin 4 × Int)), (∀ pv ∈ acc, pv.2 ≠ 0) →
      (scanSegs chk isBar cells acc).2.2 = false →
      (scanSegs chk isBar cells acc).2.1 = 0 ∧
      ∀ pv ∈ (scanSegs chk isBar cells acc).1, pv ∈ acc ∨ pv ∈ cells := by
  intro cells
  induction cells with
  | nil =>
    intro acc hacc h
    simp only [scanSegs] at h ⊢
    have hp := processSeg_not_moved chk acc hacc h
    rw [hp]
    exact ⟨rfl, fun pv hpv => Or.inl hpv⟩
  | cons pv0 rest ih =>
    intro acc hacc h
    rcases pv0 with ⟨p, v⟩
    by_cases hbar : isBar p = true
    · simp only [scanSegs, hbar, if_true] at h ⊢
      rcases Bool.or_eq_false_iff.mp h with ⟨hm1, hm2⟩
      have hp := processSeg_not_moved chk acc hacc hm1
      have hr := ih [] (by simp) hm2
      rw [hp]
      constructor
      · rw [hr.1]; simp
      · intro pv hpv
        rcases List.mem_append.mp hpv with h1 | h1
        · exact Or.inl h1
        · rcases hr.2 pv h1 with h2 | h2
          · simp at h2
          · exact Or.inr (List.mem_cons_of_mem _ h2)
    · by_cases hv : v ≠ 0
      · simp only [scanSegs, hbar, Bool.false_eq_true, if_false] at h ⊢
        rw [if_pos hv] at h ⊢
        have hacc' : ∀ pv ∈ acc ++ [(p, v)], pv.2 ≠ 0 := by
          intro pv hpv
          rcases List.mem_append.mp hpv with h1 | h1
          · exact hacc pv h1
          · simp at h1; subst h1; exact hv
        have := ih (acc ++ [(p, v)]) hacc' h
        refine ⟨this.1, fun pv hpv => ?_⟩
        rcases this.2 pv hpv with h1 | h1
        · rcases List.mem_append.mp h1 with h2 | h2
          · exact Or.inl h2
          · simp at h2; subst h2; exact Or.inr (by simp)
        · exact Or.inr (List.mem_cons_of_mem _ h1)
      · simp only [not_not] at hv
        simp only [scanSegs, hbar, Bool.false_eq_true, if_false] at h ⊢
        rw [if_neg (by simp [hv])] at h ⊢
        have := ih acc hacc h
        refine ⟨this.1, fun pv hpv => ?_⟩
        rcases this.2 pv hpv with h1 | h1
        · exact Or.inl h1
        · exact Or.inr (List.mem_cons_of_mem _ h1)

/-- A line whose scan reports no movement writes back exactly its original
values: applying the assignments is the identity, and the score is 0. -/
theorem scanSegs_apply_not_moved (chk : Fin 4 × Int → Int → Bool)
    (isBar : Fin 4 → Bool) (orig : Fin 4 → Int)
    (cells : List (Fin 4 × Int)) (hC : ∀ pv ∈ cells, pv.2 = orig pv.1)
    (h : (scanSegs chk isBar cells []).2.2 = false) :
    (∀ k, applyAssigns (scanSegs chk isBar cells []).1 orig k = orig k) ∧
    (scanSegs chk isBar cells []).2.1 = 0 := by
  have G := scanSegs_not_moved chk isBar cells [] (by simp) h
  refine ⟨?_, G.1⟩
  intro k
  unfold applyAssigns
  rcases hl : (scanSegs chk isBar cells []).1.lookup k with _ | w
  · simp
  · simp only [Option.getD_some]
    have hm := lookup_mem _ k w hl
    rcases G.2 (k, w) hm with h1 | h1
    · simp at h1
    · exact hC (k, w) h1

theorem moveLeftWithDisabled_not_moved (b : Board) (dis : Option DisabledCell)
    (h : (moveLeftWithDisabled b dis).2.2 = false) :
    (moveLeftWithDisabled b dis).1 = b ∧ (moveLeftWithDisabled b dis).2.1 = 0 := by
  simp only [moveLeftWithDisabled, List.any_eq_false, List.mem_map, id_eq,
    forall_exists_index, and_imp, forall_apply_eq_imp_iff₂] at h
  have hrow := fun i : Fin 4 => scanSegs_apply_not_moved chkLeft
    (fun p => IsDisabledCell i p dis) (b i)
    ((List.finRange 4).map (fun j => (j, b i j)))
    (by intro pv hpv; obtain ⟨j, -, rfl⟩ := List.mem_map.mp hpv; rfl)
    (Bool.eq_false_iff.mpr (h i (List.mem_finRange i)))
  constructor
  · funext i j
    exact (hrow i).1 j
  · simp only [moveLeftWithDisabled]
    refine List.sum_eq_zero ?_
    intro x hx
    obtain ⟨i, -, rfl⟩ := List.mem_map.mp hx
    exact (hrow i).2

theorem moveRightWithDisabled_not_moved (b : Board) (dis : Option DisabledCell)
    (h : (moveRightWithDisabled b dis).2.2 = false) :
    (moveRightWithDisabled b dis).1 = b ∧ (moveRightWithDisabled b dis).2.1 = 0 := by
  rcases dis with _ | dc
  · exact moveRight_not_moved b h
  · simp only [moveRightWithDisabled, List.any_eq_false, List.mem_map, id_eq,
      forall_exists_index, and_imp, forall_apply_eq_imp_iff₂] at h
    have hrow := fun i : Fin 4 => scanSegs_apply_not_moved chkStd
      (fun p => IsDisabledCell i p (some dc)) (b i)
      (((List.finRange 4).map (fun j => (j, b i j))).reverse)
      (by
        intro pv hpv
        rw [List.mem_reverse] at hpv
        obtain ⟨j, -, rfl⟩ := List.mem_map.mp hpv
        rfl)
      (Bool.eq_false_iff.mpr (h i (List.mem_finRange i)))
    constructor
    · funext i j
      exact (hrow i).1 j
    · simp only [moveRightWithDisabled]
      refine List.sum_eq_zero ?_
      intro x hx
      obtain ⟨i, -, rfl⟩ := List.mem_map.mp hx
      exact (hrow i).2

theorem moveUpWithDisabled_not_moved (b : Board) (dis : Option DisabledCell)
    (h : (moveUpWithDisabled b dis).2.2 = false) :
    (moveUpWithDisabled b dis).1 = b ∧ (moveUpWithDisabled b dis).2.1 = 0 := by
  rcases dis with _ | dc
  · exact moveUp_not_moved b h
  · simp only [moveUpWithDisabled, List.any_eq_false, List.mem_map, id_eq,
      forall_exists_index, and_imp, forall_apply_eq_imp_iff₂] at h
    have hcol := fun j : Fin 4 => scanSegs_apply_not_moved chkStd
      (fun p => IsDisabledCell p j (some dc)) (fun k => b k j)
      ((List.finRange 4).map (fun i => (i, b i j)))
      (by intro pv hpv; obtain ⟨i, -, rfl⟩ := List.mem_map.mp hpv; rfl)
      (Bool.eq_false_iff.mpr (h j (List.mem_finRange j)))
    constructor
    · funext i j
      exact (hcol j).1 i
    · simp only [moveUpWithDisabled]
      refine List.sum_eq_zero ?_
      intro x hx
      obtain ⟨j, -, rfl⟩ := List.mem_map.mp hx
      exact (hcol j).2

theorem moveDownWithDisabled_not_moved (b : Board) (dis : Option DisabledCell)
    (h : (moveDownWithDisabled b dis).2.2 = false) :
    (moveDownWithDisabled b dis).1 = b ∧ (moveDownWithDisabled b dis).2.1 = 0 := by
  rcases dis with _ | dc
  · exact moveDown_not_moved b h
  · simp only [moveDownWithDisabled, List.any_eq_false, List.mem_map, id_eq,
      forall_exists_index, and_imp, forall_apply_eq_imp_iff₂] at h
    have hcol := fun j : Fin 4 => scanSegs_apply_not_moved chkStd
      (fun p => IsDisabledCell p j (some dc)) (fun k => b k j)
      (((List.finRange 4).map (fun i => (i, b i j))).reverse)
      (by
        intro pv hpv
        rw [List.mem_reverse] at hpv
        obtain ⟨i, -, rfl⟩ := List.mem_map.mp hpv
        rfl)
      (Bool.eq_false_iff.mpr (h j (List.mem_finRange j)))
    constructor
    · funext i j
      exact (hcol j).1 i
    · simp only [moveDownWithDisabled]
      refine List.sum_eq_zero ?_
      intro x hx
      obtain ⟨j, -, rfl⟩ := List.mem_map.mp hx
      exact (hcol j).2

theorem spawn_wrap_not_moved (r : Board × Int × Bool) (spawned : Board)
    (h : (if r.2.2 then (spawned, r.2.1, r.2.2) else r).2.2 = false) :
    (if r.2.2 then (spawned, r.2.1, r.2.2) else r) = r ∧ r.2.2 = false := by
  cases hc : r.2.2
  · simp [hc]
  · rw [hc] at h
    simp at h

theorem Move_not_moved (b : Board) (d : Direction) (idx : Nat) (four : Bool)
    (h : (Move b d idx four).2.2 = false) :
    (Move b d idx four).1 = b ∧ (Move b d idx four).2.1 = 0 := by
  simp only [Move] at h ⊢
  obtain ⟨heq, hflag⟩ := spawn_wrap_not_moved _ _ h
  rw [heq]
  by_cases hu : d = DirectionUp
  · rw [if_pos hu] at hflag ⊢
    exact moveUp_not_moved b hflag
  rw [if_neg hu] at hflag ⊢
  by_cases hd : d = DirectionDown
  · rw [if_pos hd] at hflag ⊢
    exact moveDown_not_moved b hflag
  rw [if_neg hd] at hflag ⊢
  by_cases hl : d = DirectionLeft
  · rw [if_pos hl] at hflag ⊢
    exact moveLeft_not_moved b hflag
  rw [if_neg hl] at hflag ⊢
  by_cases hr : d = DirectionRight
  · rw [if_pos hr] at hflag ⊢
    exact moveRight_not_moved b hflag
  rw [if_neg hr] at hflag ⊢
  exact ⟨rfl, rfl⟩

theorem MoveWithDisabledCell_not_moved (b : Board) (d : Direction)
    (dis : Option DisabledCell) (idx : Nat) (four : Bool)
    (h : (MoveWithDisabledCell b d dis idx four).2.2 = false) :
    (MoveWithDisabledCell b d dis idx four).1 = b ∧
    (MoveWithDisabledCell b d dis idx four).2.1 = 0 := by
  simp only [MoveWithDisabledCell] at h ⊢
  obtain ⟨heq, hflag⟩ := spawn_wrap_not_moved _ _ h
  rw [heq]
  by_cases hu : d = DirectionUp
  · rw [if_pos hu] at hflag ⊢
    exact moveUpWithDisabled_not_moved b dis hflag
  rw [if_neg hu] at hflag ⊢
  by_cases hd : d = DirectionDown
  · rw [if_pos hd] at hflag ⊢
    exact moveDownWithDisabled_not_moved b dis hflag
  rw [if_neg hd] at hflag ⊢
  by_cases hl : d = DirectionLeft
  · rw [if_pos hl] at hflag ⊢
    exact moveLeftWithDisabled_not_moved b dis hflag
  rw [if_neg hl] at hflag ⊢
  by_cases hr : d = DirectionRight
  · rw [if_pos hr] at hflag ⊢
    exact moveRightWithDisabled_not_moved b dis hflag
  rw [if_neg hr] at hflag ⊢
  exact ⟨rfl, rfl⟩

/-- C4.  Idempotence of rejection: for every board, direction and
(possibly absent) disabled cell, when either move entry point reports
`moved = false` it returns the input board bit-for-bit unchanged (in
particular no tile is spawned) and a `scoreGained` of 0. -/
theorem C4_rejection_returns_input (b : Board) (d : Direction)
    (dis : Option DisabledCell) (idx : Nat) (four : Bool) :
    ((Move b d idx four).2.2 = false →
      (Move b d idx four).1 = b ∧ (Move b d idx four).2.1 = 0) ∧
    ((MoveWithDisabledCell b d dis idx four).2.2 = false →
      (MoveWithDisabledCell b d dis idx four).1 = b ∧
      (MoveWithDisabledCell b d dis idx four).2.1 = 0) :=
  ⟨Move_not_moved b d idx four, MoveWithDisabledCell_not_moved b d dis idx four⟩

/-- Witness for C4: on the full no-merge checkerboard a left move is
rejected and both entry points return the board unchanged with score 0. -/
theorem C4_rejection_returns_input_witness :
    (Move boardFullCheck DirectionLeft 0 false).2.2 = false ∧
    (Move boardFullCheck DirectionLeft 0 false).1 = boardFullCheck ∧
    (Move boardFullCheck DirectionLeft 0 false).2.1 = 0 ∧
    (MoveWithDisabledCell boardFullCheck DirectionRight (some (0, 0)) 0 false).1
      = boardFullCheck ∧
    (MoveWithDisabledCell boardFullCheck DirectionRight (some (0, 0)) 0 false).2.1 = 0 := by
  have h1 : (Move boardFullCheck DirectionLeft 0 false).2.2 = false := by decide
  have h2 : (MoveWithDisabledCell boardFullCheck DirectionRight (some (0, 0)) 0 false).2.2
      = false := by decide
  have c1 := C4_rejection_returns_input boardFullCheck DirectionLeft none 0 false
  have c2 := C4_rejection_returns_input boardFullCheck DirectionRight (some (0, 0)) 0 false
  exact ⟨h1, (c1.1 h1).1, (c1.1 h1).2, (c2.2 h2).1, (c2.2 h2).2⟩

/-!
## Power-of-two invariant and tile counting
-/

/-- A cell value that is a power of 2 at least 2 (the board invariant for
non-zero cells). -/
def IsPow2 (v : Int) : Prop := ∃ k : Nat, 1 ≤ k ∧ v = 2 ^ k

/-- Number of non-zero cells of a board. -/
def countNZ (b : Board) : Nat :=
  ∑ i : Fin 4, ∑ j : Fin 4, if b i j ≠ 0 then 1 else 0

theorem mergeLine_pow2 (l : List Int) (hl : ∀ x ∈ l, IsPow2 x) :
    ∀ y ∈ (mergeLine l).1, IsPow2 y := by
  induction l using mergeLine.induct with
  | case1 => simp [mergeLine]
  | case2 a => simpa [mergeLine] using hl
  | case3 b rest ih =>
    rw [mergeLine_cons_cons_eq]
    intro y hy
    rcases List.mem_cons.mp hy with h | h
    · obtain ⟨k, hk, hv⟩ := hl b (by simp)
      exact ⟨k + 1, by omega, by subst h; rw [hv]; ring⟩
    · exact ih (fun x hx => hl x (by simp [hx])) y h
  | case4 a b rest hab ih =>
    rw [mergeLine_cons_cons_ne a b rest hab]
    intro y hy
    rcases List.mem_cons.mp hy with h | h
    · subst h; exact hl y (by simp)
    · refine ih (fun x hx => hl x ?_) y h
      simp only [List.mem_cons] at hx ⊢
      tauto

theorem getD_mem_of_ne_zero (m : List Int) (pos : Nat) (h : m.getD pos 0 ≠ 0) :
    m.getD pos 0 ∈ m := by
  by_cases hp : pos < m.length
  · rw [List.getD_eq_getElem m 0 hp]
    exact List.getElem_mem hp
  · rw [List.getD_eq_default m 0 (by omega)] at h
    simp at h

/-- The merged line of the non-zero filter of a line of power-of-2-or-0
values contains only powers of 2. -/
theorem mergeLine_filter_pow2 (l : List Int)
    (hl : ∀ x ∈ l, x ≠ 0 → IsPow2 x) :
    ∀ y ∈ (mergeLine (l.filter (fun v => v ≠ 0))).1, IsPow2 y := by
  apply mergeLine_pow2
  intro x hx
  exact hl x (List.mem_of_mem_filter hx) (filter_nonzero_mem l x hx)

theorem fin4_val_zero : ((0 : Fin 4) : Nat) = 0 := rfl

theorem fin4_val_one : ((1 : Fin 4) : Nat) = 1 := rfl

theorem fin4_val_two : ((2 : Fin 4) : Nat) = 2 := rfl

theorem fin4_val_three : ((3 : Fin 4) : Nat) = 3 := rfl

/-- Counting the non-zero cells of a 4-cell padded line recovers the
length of the (zero-free, short enough) line. -/
theorem sum_pad_count (m : List Int) (hnz : ∀ y ∈ m, y ≠ 0)
    (hlen : m.length ≤ 4) :
    (∑ j : Fin 4, if m.getD j.val 0 ≠ 0 then (1 : Nat) else 0) = m.length := by
  rw [Fin.sum_univ_four, fin4_val_zero, fin4_val_one, fin4_val_two, fin4_val_three]
  match m, hlen with
  | [], _ => simp
  | [a], _ =>
    have ha : a ≠ 0 := hnz a (by simp)
    norm_num [ha]
  | [a, b], _ =>
    have ha : a ≠ 0 := hnz a (by simp)
    have hb : b ≠ 0 := hnz b (by simp)
    norm_num [ha, hb]
  | [a, b, c], _ =>
    have ha : a ≠ 0 := hnz a (by simp)
    have hb : b ≠ 0 := hnz b (by simp)
    have hc : c ≠ 0 := hnz c (by simp)
    norm_num [ha, hb, hc]
  | [a, b, c, d], _ =>
    have ha : a ≠ 0 := hnz a (by simp)
    have hb : b ≠ 0 := hnz b (by simp)
    have hc : c ≠ 0 := hnz c (by simp)
    have hd : d ≠ 0 := hnz d (by simp)
    norm_num [ha, hb, hc, hd]

/-- As `sum_pad_count`, reading the padded line mirrored (index `3 - j`,
as the right/down write-backs do). -/
theorem sum_pad_count_rev (m : List Int) (hnz : ∀ y ∈ m, y ≠ 0)
    (hlen : m.length ≤ 4) :
    (∑ j : Fin 4, if m.getD (3 - j.val) 0 ≠ 0 then (1 : Nat) else 0) = m.length := by
  rw [Fin.sum_univ_four, fin4_val_zero, fin4_val_one, fin4_val_two, fin4_val_three]
  match m, hlen with
  | [], _ => simp
  | [a], _ =>
    have ha : a ≠ 0 := hnz a (by simp)
    norm_num [ha]
  | [a, b], _ =>
    have ha : a ≠ 0 := hnz a (by simp)
    have hb : b ≠ 0 := hnz b (by simp)
    norm_num [ha, hb]
  | [a, b, c], _ =>
    have ha : a ≠ 0 := hnz a (by simp)
    have hb : b ≠ 0 := hnz b (by simp)
    have hc : c ≠ 0 := hnz c (by simp)
    norm_num [ha, hb, hc]
  | [a, b, c, d], _ =>
    have ha : a ≠ 0 := hnz a (by simp)
    have hb : b ≠ 0 := hnz b (by simp)
    have hc : c ≠ 0 := hnz c (by simp)
    have hd : d ≠ 0 := hnz d (by simp)
    norm_num [ha, hb, hc, hd]

/-- Length of the non-zero filter of an explicit 4-cell line as a sum of
indicator terms. -/
theorem filter_length_four (x0 x1 x2 x3 : Int) :
    (([x0, x1, x2, x3].filter (fun v => v ≠ 0)).length : Nat)
      = (if x0 ≠ 0 then 1 else 0) + ((if x1 ≠ 0 then 1 else 0)
        + ((if x2 ≠ 0 then 1 else 0) + ((if x3 ≠ 0 then 1 else 0) + 0))) := by
  by_cases h0 : x0 = 0 <;> by_cases h1 : x1 = 0 <;>
    by_cases h2 : x2 = 0 <;> by_cases h3 : x3 = 0 <;>
    simp [h0, h1, h2, h3]

theorem row_filter_count (b : Board) (i : Fin 4) :
    ((rowList b i).filter (fun v => v ≠ 0)).length
      = ∑ j : Fin 4, if b i j ≠ 0 then (1 : Nat) else 0 := by
  rw [Fin.sum_univ_four]
  simp only [rowList]
  rw [filter_length_four]
  omega

theorem col_filter_count (b : Board) (j : Fin 4) :
    ((colList b j).filter (fun v => v ≠ 0)).length
      = ∑ i : Fin 4, if b i j ≠ 0 then (1 : Nat) else 0 := by
  rw [Fin.sum_univ_four]
  simp only [colList]
  rw [filter_length_four]
  omega

theorem merged_row_len_le (b : Board) (i : Fin 4) :
    (mergeLine ((rowList b i).filter (fun v => v ≠ 0))).1.length ≤ 4 :=
  le_trans (mergeLine_length_le _)
    (le_trans (List.length_filter_le _ _) (by simp [rowList]))

theorem merged_row_rev_len_le (b : Board) (i : Fin 4) :
    (mergeLine (((rowList b i).reverse).filter (fun v => v ≠ 0))).1.length ≤ 4 :=
  le_trans (mergeLine_length_le _)
    (le_trans (List.length_filter_le _ _) (by simp [rowList]))

theorem merged_col_len_le (b : Board) (j : Fin 4) :
    (mergeLine ((colList b j).filter (fun v => v ≠ 0))).1.length ≤ 4 :=
  le_trans (mergeLine_length_le _)
    (le_trans (List.length_filter_le _ _) (by simp [colList]))

theorem merged_col_rev_len_le (b : Board) (j : Fin 4) :
    (mergeLine (((colList b j).reverse).filter (fun v => v ≠ 0))).1.length ≤ 4 :=
  le_trans (mergeLine_length_le _)
    (le_trans (List.length_filter_le _ _) (by simp [colList]))

theorem moveLeft_countNZ (b : Board) : countNZ (moveLeft b).1 ≤ countNZ b := by
  unfold countNZ
  apply Finset.sum_le_sum
  intro i _
  have hnz := mergeLine_nonzero _ (filter_nonzero_mem (rowList b i))
  have hcount := sum_pad_count _ hnz (merged_row_len_le b i)
  simp only [moveLeft]
  rw [hcount, ← row_filter_count]
  exact mergeLine_length_le _

theorem moveRight_countNZ (b : Board) : countNZ (moveRight b).1 ≤ countNZ b := by
  unfold countNZ
  apply Finset.sum_le_sum
  intro i _
  have hnz := mergeLine_nonzero _ (filter_nonzero_mem ((rowList b i).reverse))
  have hcount := sum_pad_count_rev _ hnz (merged_row_rev_len_le b i)
  simp only [moveRight]
  rw [hcount, ← row_filter_count]
  calc (mergeLine (((rowList b i).reverse).filter (fun v => v ≠ 0))).1.length
      ≤ (((rowList b i).reverse).filter (fun v => v ≠ 0)).length :=
        mergeLine_length_le _
    _ = ((rowList b i).filter (fun v => v ≠ 0)).length := by
        rw [List.filter_reverse, List.length_reverse]

theorem moveUp_countNZ (b : Board) : countNZ (moveUp b).1 ≤ countNZ b := by
  unfold countNZ
  rw [Finset.sum_comm]
  conv_rhs => rw [Finset.sum_comm]
  apply Finset.sum_le_sum
  intro j _
  have hnz := mergeLine_nonzero _ (filter_nonzero_mem (colList b j))
  have hcount := sum_pad_count _ hnz (merged_col_len_le b j)
  simp only [moveUp]
  rw [hcount, ← col_filter_count]
  exact mergeLine_length_le _

theorem moveDown_countNZ (b : Board) : countNZ (moveDown b).1 ≤ countNZ b := by
  unfold countNZ
  rw [Finset.sum_comm]
  conv_rhs => rw [Finset.sum_comm]
  apply Finset.sum_le_sum
  intro j _
  have hnz := mergeLine_nonzero _ (filter_nonzero_mem ((colList b j).reverse))
  have hcount := sum_pad_count_rev _ hnz (merged_col_rev_len_le b j)
  simp only [moveDown]
  rw [hcount, ← col_filter_count]
  calc (mergeLine (((colList b j).reverse).filter (fun v => v ≠ 0))).1.length
      ≤ (((colList b j).reverse).filter (fun v => v ≠ 0)).length :=
        mergeLine_length_le _
    _ = ((colList b j).filter (fun v => v ≠ 0)).length := by
        rw [List.filter_reverse, List.length_reverse]

theorem rowList_pow2 (b : Board) (hInv : ∀ i j, b i j ≠ 0 → IsPow2 (b i j))
    (i : Fin 4) : ∀ x ∈ rowList b i, x ≠ 0 → IsPow2 x := by
  intro x hx
  simp only [rowList, List.mem_cons, List.not_mem_nil, or_false] at hx
  rcases hx with h | h | h | h <;> subst h <;> exact hInv i _

theorem colList_pow2 (b : Board) (hInv : ∀ i j, b i j ≠ 0 → IsPow2 (b i j))
    (j : Fin 4) : ∀ x ∈ colList b j, x ≠ 0 → IsPow2 x := by
  intro x hx
  simp only [colList, List.mem_cons, List.not_mem_nil, or_false] at hx
  rcases hx with h | h | h | h <;> subst h <;> exact hInv _ j

theorem moveLeft_pow2 (b : Board) (hInv : ∀ i j, b i j ≠ 0 → IsPow2 (b i j)) :
    ∀ i j, (moveLeft b).1 i j ≠ 0 → IsPow2 ((moveLeft b).1 i j) := by
  intro i j h
  simp only [moveLeft] at h ⊢
  exact mergeLine_filter_pow2 (rowList b i) (rowList_pow2 b hInv i) _
    (getD_mem_of_ne_zero _ _ h)

theorem moveRight_pow2 (b : Board) (hInv : ∀ i j, b i j ≠ 0 → IsPow2 (b i j)) :
    ∀ i j, (moveRight b).1 i j ≠ 0 → IsPow2 ((moveRight b).1 i j) := by
  intro i j h
  simp only [moveRight] at h ⊢
  refine mergeLine_filter_pow2 ((rowList b i).reverse) ?_ _
    (getD_mem_of_ne_zero _ _ h)
  intro x hx
  exact rowList_pow2 b hInv i x (List.mem_reverse.mp hx)

theorem moveUp_pow2 (b : Board) (hInv : ∀ i j, b i j ≠ 0 → IsPow2 (b i j)) :
    ∀ i j, (moveUp b).1 i j ≠ 0 → IsPow2 ((moveUp b).1 i j) := by
  intro i j h
  simp only [moveUp] at h ⊢
  exact mergeLine_filter_pow2 (colList b j) (colList_pow2 b hInv j) _
    (getD_mem_of_ne_zero _ _ h)

theorem moveDown_pow2 (b : Board) (hInv : ∀ i j, b i j ≠ 0 → IsPow2 (b i j)) :
    ∀ i j, (moveDown b).1 i j ≠ 0 → IsPow2 ((moveDown b).1 i j) := by
  intro i j h
  simp only [moveDown] at h ⊢
  refine mergeLine_filter_pow2 ((colList b j).reverse) ?_ _
    (getD_mem_of_ne_zero _ _ h)
  intro x hx
  exact colList_pow2 b hInv j x (List.mem_reverse.mp hx)

theorem SetCell_countNZ (b : Board) (r c : Fin 4) (v : Int) :
    countNZ (SetCell b r c v) ≤ countNZ b + 1 := by
  have hind : ∀ i : Fin 4, (∑ j : Fin 4, if i = r ∧ j = c then (1 : Nat) else 0)
      = if i = r then 1 else 0 := by
    intro i
    by_cases hi : i = r
    · simp [hi, Finset.sum_ite_eq']
    · simp [hi]
  have hsum : (∑ i : Fin 4, ∑ j : Fin 4, if i = r ∧ j = c then (1 : Nat) else 0) = 1 := by
    rw [Finset.sum_congr rfl (fun i _ => hind i)]
    simp [Finset.sum_ite_eq']
  have hle : ∀ i j : Fin 4,
      (if SetCell b r c v i j ≠ 0 then (1 : Nat) else 0)
        ≤ (if b i j ≠ 0 then 1 else 0) + (if i = r ∧ j = c then 1 else 0) := by
    intro i j
    by_cases hij : i = r ∧ j = c
    · simp [hij]
      split <;> omega
    · simp only [SetCell, if_neg hij]
      split <;> simp [hij]
  calc countNZ (SetCell b r c v)
      ≤ ∑ i : Fin 4, ∑ j : Fin 4,
          ((if b i j ≠ 0 then (1 : Nat) else 0) + (if i = r ∧ j = c then 1 else 0)) := by
        unfold countNZ
        exact Finset.sum_le_sum (fun i _ => Finset.sum_le_sum (fun j _ => hle i j))
    _ = countNZ b + 1 := by
        have hdist : ∀ i : Fin 4,
            (∑ j : Fin 4, ((if b i j ≠ 0 then (1 : Nat) else 0)
              + (if i = r ∧ j = c then 1 else 0)))
              = (∑ j : Fin 4, if b i j ≠ 0 then (1 : Nat) else 0)
                + (∑ j : Fin 4, if i = r ∧ j = c then (1 : Nat) else 0) :=
          fun i => Finset.sum_add_distrib
        rw [Finset.sum_congr rfl (fun i _ => hdist i), Finset.sum_add_distrib, hsum]
        rfl

theorem SetCell_pow2 (b : Board) (r c : Fin 4) (v : Int)
    (hInv : ∀ i j, b i j ≠ 0 → IsPow2 (b i j)) (hv : IsPow2 v) :
    ∀ i j, SetCell b r c v i j ≠ 0 → IsPow2 (SetCell b r c v i j) := by
  intro i j h
  simp only [SetCell] at h ⊢
  by_cases hij : i = r ∧ j = c
  · rw [if_pos hij] at h ⊢
    exact hv
  · rw [if_neg hij] at h ⊢
    exact hInv i j h

theorem addRandomTile_countNZ (b : Board) (idx : Nat) (four : Bool) :
    countNZ (addRandomTile b idx four) ≤ countNZ b + 1 := by
  simp only [addRandomTile]
  by_cases h : (GetEmptyCells b).length = 0
  · rw [if_pos h]
    omega
  · rw [if_neg h]
    exact SetCell_countNZ b _ _ _

theorem addRandomTile_pow2 (b : Board) (idx : Nat) (four : Bool)
    (hInv : ∀ i j, b i j ≠ 0 → IsPow2 (b i j)) :
    ∀ i j, addRandomTile b idx four i j ≠ 0 → IsPow2 (addRandomTile b idx four i j) := by
  simp only [addRandomTile]
  by_cases h : (GetEmptyCells b).length = 0
  · rw [if_pos h]
    exact hInv
  · rw [if_neg h]
    refine SetCell_pow2 b _ _ _ hInv ?_
    cases four
    · exact ⟨1, le_refl 1, rfl⟩
    · exact ⟨2, by omega, rfl⟩

theorem spawn_wrap_invariant (b : Board) (idx : Nat) (four : Bool)
    (r : Board × Int × Bool)
    (hp : ∀ i j, r.1 i j ≠ 0 → IsPow2 (r.1 i j)) (hc : countNZ r.1 ≤ countNZ b) :
    (∀ i j, (if r.2.2 then (addRandomTile r.1 idx four, r.2.1, r.2.2) else r).1 i j ≠ 0 →
      IsPow2 ((if r.2.2 then (addRandomTile r.1 idx four, r.2.1, r.2.2) else r).1 i j)) ∧
    countNZ (if r.2.2 then (addRandomTile r.1 idx four, r.2.1, r.2.2) else r).1
      ≤ countNZ b + 1 := by
  cases hm : r.2.2
  · rw [if_neg Bool.false_ne_true]
    exact ⟨hp, by omega⟩
  · rw [if_pos rfl]
    refine ⟨addRandomTile_pow2 r.1 idx four hp, ?_⟩
    exact le_trans (addRandomTile_countNZ r.1 idx four) (by omega)

/-- Core of the invariant argument over the exact (non-wrapping) merge:
from a board whose non-zero cells are powers of 2 at least 2¹, every
non-zero cell after `Move` is again such a power of 2, the tile count
grows by at most the one spawned tile, and each directional move never
increases the count before the spawn. -/
theorem Move_invariant_core (b : Board)
    (hInv : ∀ i j, b i j ≠ 0 → IsPow2 (b i j))
    (d : Direction) (idx : Nat) (four : Bool) :
    (∀ i j, (Move b d idx four).1 i j ≠ 0 → IsPow2 ((Move b d idx four).1 i j)) ∧
    countNZ (Move b d idx four).1 ≤ countNZ b + 1 ∧
    countNZ (moveUp b).1 ≤ countNZ b ∧ countNZ (moveDown b).1 ≤ countNZ b ∧
    countNZ (moveLeft b).1 ≤ countNZ b ∧ countNZ (moveRight b).1 ≤ countNZ b := by
  have hmain : (∀ i j, (Move b d idx four).1 i j ≠ 0 →
      IsPow2 ((Move b d idx four).1 i j)) ∧
      countNZ (Move b d idx four).1 ≤ countNZ b + 1 := by
    simp only [Move]
    by_cases hu : d = DirectionUp
    · rw [if_pos hu]
      exact spawn_wrap_invariant b idx four (moveUp b) (moveUp_pow2 b hInv)
        (moveUp_countNZ b)
    rw [if_neg hu]
    by_cases hd : d = DirectionDown
    · rw [if_pos hd]
      exact spawn_wrap_invariant b idx four (moveDown b) (moveDown_pow2 b hInv)
        (moveDown_countNZ b)
    rw [if_neg hd]
    by_cases hl : d = DirectionLeft
    · rw [if_pos hl]
      exact spawn_wrap_invariant b idx four (moveLeft b) (moveLeft_pow2 b hInv)
        (moveLeft_countNZ b)
    rw [if_neg hl]
    by_cases hr : d = DirectionRight
    · rw [if_pos hr]
      exact spawn_wrap_invariant b idx four (moveRight b) (moveRight_pow2 b hInv)
        (moveRight_countNZ b)
    rw [if_neg hr]
    exact spawn_wrap_invariant b idx four (b, 0, false) hInv (le_refl _)
  exact ⟨hmain.1, hmain.2, moveUp_countNZ b, moveDown_countNZ b,
    moveLeft_countNZ b, moveRight_countNZ b⟩

/-!
## The engine under Go's wrapping int64 arithmetic

`int` on the target platform is 64-bit, and `merged := line[i] * 2` as
well as the `score += merged` / `scoreGained += merged.score` additions
overflow silently.  The definitions below repeat the merge scan and the
four moves with that wrap made explicit; they agree with the exact
versions whenever no intermediate value reaches `2^63`
(`mergeLineW_eq_of_bounded`), and differ exactly at the boundary, where
merging two `2^62` tiles yields `-2^63`.
-/

/-- Two's-complement wrap-around of a 64-bit signed integer. -/
def wrapI64 (v : Int) : Int := (v + 2 ^ 63) % 2 ^ 64 - 2 ^ 63

/-- `Engine.mergeLine` with `merged := line[i] * 2` and `score += merged`
performed in wrapping int64 arithmetic, as the Go program executes them
(the score is accumulated left to right; re-wrapping each partial sum
keeps the same two's-complement representative). -/
def mergeLineW : List Int → List Int × Int
  | [] => ([], 0)
  | [a] => ([a], 0)
  | a :: b :: rest =>
    if a = b then
      let r := mergeLineW rest
      (wrapI64 (a + a) :: r.1, wrapI64 (wrapI64 (a + a) + r.2))
    else
      let r := mergeLineW (b :: rest)
      (a :: r.1, r.2)

/-- `Engine.moveLeft` over the wrapping merge; `scoreGained += merged.score`
wraps per row. -/
def moveLeftW (b : Board) : Board × Int × Bool :=
  let nb : Board := fun i j =>
    (mergeLineW ((rowList b i).filter (fun v => v ≠ 0))).1.getD j.val 0
  let score : Int :=
    ((List.finRange 4).map (fun i =>
      (mergeLineW ((rowList b i).filter (fun v => v ≠ 0))).2)).foldl
      (fun s x => wrapI64 (s + x)) 0
  (nb, score, decide (∃ i j, nb i j ≠ b i j))

/-- `Engine.moveRight` over the wrapping merge. -/
def moveRightW (b : Board) : Board × Int × Bool :=
  let nb : Board := fun i j =>
    (mergeLineW (((rowList b i).reverse).filter (fun v => v ≠ 0))).1.getD (3 - j.val) 0
  let score : Int :=
    ((List.finRange 4).map (fun i =>
      (mergeLineW (((rowList b i).reverse).filter (fun v => v ≠ 0))).2)).foldl
      (fun s x => wrapI64 (s + x)) 0
  (nb, score, decide (∃ i j, nb i j ≠ b i j))

/-- `Engine.moveUp` over the wrapping merge. -/
def moveUpW (b : Board) : Board × Int × Bool :=
  let nb : Board := fun i j =>
    (mergeLineW ((colList b j).filter (fun v => v ≠ 0))).1.getD i.val 0
  let score : Int :=
    ((List.finRange 4).map (fun j =>
      (mergeLineW ((colList b j).filter (fun v => v ≠ 0))).2)).foldl
      (fun s x => wrapI64 (s + x)) 0
  (nb, score, decide (∃ i j, nb i j ≠ b i j))

/-- `Engine.moveDown` over the wrapping merge. -/
def moveDownW (b : Board) : Board × Int × Bool :=
  let nb : Board := fun i j =>
    (mergeLineW (((colList b j).reverse).filter (fun v => v ≠ 0))).1.getD (3 - i.val) 0
  let score : Int :=
    ((List.finRange 4).map (fun j =>
      (mergeLineW (((colList b j).reverse).filter (fun v => v ≠ 0))).2)).foldl
      (fun s x => wrapI64 (s + x)) 0
  (nb, score, decide (∃ i j, nb i j ≠ b i j))

/-- `Engine.Move` over the wrapping moves (same dispatch, same spawn —
the spawn writes only the literals 2 and 4). -/
def MoveW (b : Board) (direction : Direction) (idx : Nat) (four : Bool) :
    Board × Int × Bool :=
  let r :=
    if direction = DirectionUp then moveUpW b
    else if direction = DirectionDown then moveDownW b
    else if direction = DirectionLeft then moveLeftW b
    else if direction = DirectionRight then moveRightW b
    else (b, 0, false)
  if r.2.2 then (addRandomTile r.1 idx four, r.2.1, r.2.2) else r

/-- A power of 2 small enough that its merge stays below the int64 wrap
boundary: `2^k` with `1 ≤ k ≤ 61`, so a merge reaches at most `2^62`. -/
def IsPow2Bounded (v : Int) : Prop := ∃ k : Nat, 1 ≤ k ∧ k ≤ 61 ∧ v = 2 ^ k

/-- A board whose row 0 holds two adjacent `2^62` tiles — it satisfies
the power-of-2 board invariant, and a left move merges them across the
int64 boundary. -/
def boardOverflow : Board := mkBoard [[2 ^ 62, 2 ^ 62, 0, 0]]

theorem wrapI64_eq_self (v : Int) (h1 : -(2 ^ 63) ≤ v) (h2 : v < 2 ^ 63) :
    wrapI64 v = v := by
  unfold wrapI64
  rw [Int.emod_eq_of_lt (by linarith) (by
    have h : (2 : Int) ^ 64 = 2 ^ 63 + 2 ^ 63 := by norm_num
    linarith)]
  ring

theorem mergeLineW_cons_cons_eq (b : Int) (rest : List Int) :
    mergeLineW (b :: b :: rest)
      = (wrapI64 (b + b) :: (mergeLineW rest).1,
         wrapI64 (wrapI64 (b + b) + (mergeLineW rest).2)) := by
  simp [mergeLineW]

theorem mergeLineW_cons_cons_ne (a b : Int) (rest : List Int) (hab : a ≠ b) :
    mergeLineW (a :: b :: rest)
      = (a :: (mergeLineW (b :: rest)).1, (mergeLineW (b :: rest)).2) := by
  simp [mergeLineW, hab]

/-- Away from the wrap boundary the wrapping merge produces the same
line as the exact merge: when every tile of the line is `2^k` with
`k ≤ 61`, each merged value is at most `2^62` and the wrap is the
identity. -/
theorem mergeLineW_eq_of_bounded (l : List Int)
    (hl : ∀ x ∈ l, IsPow2Bounded x) :
    (mergeLineW l).1 = (mergeLine l).1 := by
  induction l using mergeLineW.induct with
  | case1 => rfl
  | case2 a => rfl
  | case3 b rest ih =>
    obtain ⟨k, hk1, hk2, hv⟩ := hl b (by simp)
    have hsum : b + b = 2 ^ (k + 1) := by rw [hv, pow_succ]; ring
    have hpos : (0 : Int) < 2 ^ (k + 1) := by positivity
    have hle : (2 : Int) ^ (k + 1) ≤ 2 ^ 62 :=
      pow_le_pow_right₀ (by norm_num) (by omega)
    have hwrap : wrapI64 (b + b) = b + b := by
      apply wrapI64_eq_self
      · rw [hsum]
        have : -(2 ^ 63 : Int) < 0 := by norm_num
        linarith
      · rw [hsum]
        have : (2 : Int) ^ 62 < 2 ^ 63 := by norm_num
        linarith
    rw [mergeLineW_cons_cons_eq, mergeLine_cons_cons_eq, hwrap,
      ih (fun x hx => hl x (by simp [hx]))]
  | case4 a b rest hab ih =>
    rw [mergeLineW_cons_cons_ne a b rest hab, mergeLine_cons_cons_ne a b rest hab,
      ih (fun x hx => hl x (by simp only [List.mem_cons] at hx ⊢; tauto))]

theorem moveLeftW_eq (b : Board)
    (hb : ∀ i j, b i j ≠ 0 → IsPow2Bounded (b i j)) :
    (moveLeftW b).1 = (moveLeft b).1 ∧ (moveLeftW b).2.2 = (moveLeft b).2.2 := by
  have hrow : ∀ i : Fin 4,
      (mergeLineW ((rowList b i).filter (fun v => v ≠ 0))).1
        = (mergeLine ((rowList b i).filter (fun v => v ≠ 0))).1 := by
    intro i
    apply mergeLineW_eq_of_bounded
    intro x hx
    have hnz := filter_nonzero_mem _ x hx
    have hmem := List.mem_of_mem_filter hx
    simp only [rowList, List.mem_cons, List.not_mem_nil, or_false] at hmem
    rcases hmem with h | h | h | h <;> subst h <;> exact hb i _ hnz
  constructor
  · funext i j
    simp only [moveLeftW, moveLeft, hrow]
  · simp only [moveLeftW, moveLeft, hrow]

theorem moveRightW_eq (b : Board)
    (hb : ∀ i j, b i j ≠ 0 → IsPow2Bounded (b i j)) :
    (moveRightW b).1 = (moveRight b).1 ∧ (moveRightW b).2.2 = (moveRight b).2.2 := by
  have hrow : ∀ i : Fin 4,
      (mergeLineW (((rowList b i).reverse).filter (fun v => v ≠ 0))).1
        = (mergeLine (((rowList b i).reverse).filter (fun v => v ≠ 0))).1 := by
    intro i
    apply mergeLineW_eq_of_bounded
    intro x hx
    have hnz := filter_nonzero_mem _ x hx
    have hmem := List.mem_reverse.mp (List.mem_of_mem_filter hx)
    simp only [rowList, List.mem_cons, List.not_mem_nil, or_false] at hmem
    rcases hmem with h | h | h | h <;> subst h <;> exact hb i _ hnz
  constructor
  · funext i j
    simp only [moveRightW, moveRight, hrow]
  · simp only [moveRightW, moveRight, hrow]

theorem moveUpW_eq (b : Board)
    (hb : ∀ i j, b i j ≠ 0 → IsPow2Bounded (b i j)) :
    (moveUpW b).1 = (moveUp b).1 ∧ (moveUpW b).2.2 = (moveUp b).2.2 := by
  have hcol : ∀ j : Fin 4,
      (mergeLineW ((colList b j).filter (fun v => v ≠ 0))).1
        = (mergeLine ((colList b j).filter (fun v => v ≠ 0))).1 := by
    intro j
    apply mergeLineW_eq_of_bounded
    intro x hx
    have hnz := filter_nonzero_mem _ x hx
    have hmem := List.mem_of_mem_filter hx
    simp only [colList, List.mem_cons, List.not_mem_nil, or_false] at hmem
    rcases hmem with h | h | h | h <;> subst h <;> exact hb _ j hnz
  constructor
  · funext i j
    simp only [moveUpW, moveUp, hcol]
  · simp only [moveUpW, moveUp, hcol]

theorem moveDownW_eq (b : Board)
    (hb : ∀ i j, b i j ≠ 0 → IsPow2Bounded (b i j)) :
    (moveDownW b).1 = (moveDown b).1 ∧ (moveDownW b).2.2 = (moveDown b).2.2 := by
  have hcol : ∀ j : Fin 4,
      (mergeLineW (((colList b j).reverse).filter (fun v => v ≠ 0))).1
        = (mergeLine (((colList b j).reverse).filter (fun v => v ≠ 0))).1 := by
    intro j
    apply mergeLineW_eq_of_bounded
    intro x hx
    have hnz := filter_nonzero_mem _ x hx
    have hmem := List.mem_reverse.mp (List.mem_of_mem_filter hx)
    simp only [colList, List.mem_cons, List.not_mem_nil, or_false] at hmem
    rcases hmem with h | h | h | h <;> subst h <;> exact hb _ j hnz
  constructor
  · funext i j
    simp only [moveDownW, moveDown, hcol]
  · simp only [moveDownW, moveDown, hcol]

theorem spawn_wrap_board_congr (idx : Nat) (four : Bool)
    (rW r : Board × Int × Bool) (h1 : rW.1 = r.1) (h2 : rW.2.2 = r.2.2) :
    (if rW.2.2 then (addRandomTile rW.1 idx four, rW.2.1, rW.2.2) else rW).1
      = (if r.2.2 then (addRandomTile r.1 idx four, r.2.1, r.2.2) else r).1 := by
  by_cases hr : r.2.2 = true
  · have h2' : rW.2.2 = true := by rw [h2, hr]
    rw [h2', hr, if_pos rfl, if_pos rfl]
    simp only [h1]
  · have hr' : r.2.2 = false := by revert hr; cases r.2.2 <;> simp
    have h2' : rW.2.2 = false := by rw [h2, hr']
    rw [h2', hr', if_neg Bool.false_ne_true, if_neg Bool.false_ne_true]
    exact h1

/-- Below the wrap boundary, the wrapping `Move` returns the same board
as the exact one (the score components may differ, the boards and the
spawn cannot). -/
theorem MoveW_board_eq (b : Board)
    (hb : ∀ i j, b i j ≠ 0 → IsPow2Bounded (b i j))
    (d : Direction) (idx : Nat) (four : Bool) :
    (MoveW b d idx four).1 = (Move b d idx four).1 := by
  simp only [MoveW, Move]
  by_cases hu : d = DirectionUp
  · rw [if_pos hu, if_pos hu]
    exact spawn_wrap_board_congr idx four _ _ (moveUpW_eq b hb).1 (moveUpW_eq b hb).2
  rw [if_neg hu, if_neg hu]
  by_cases hd : d = DirectionDown
  · rw [if_pos hd, if_pos hd]
    exact spawn_wrap_board_congr idx four _ _ (moveDownW_eq b hb).1 (moveDownW_eq b hb).2
  rw [if_neg hd, if_neg hd]
  by_cases hl : d = DirectionLeft
  · rw [if_pos hl, if_pos hl]
    exact spawn_wrap_board_congr idx four _ _ (moveLeftW_eq b hb).1 (moveLeftW_eq b hb).2
  rw [if_neg hl, if_neg hl]
  by_cases hr : d = DirectionRight
  · rw [if_pos hr, if_pos hr]
    exact spawn_wrap_board_congr idx four _ _ (moveRightW_eq b hb).1 (moveRightW_eq b hb).2
  rw [if_neg hr, if_neg hr]

/-- C7, counterexample to the claim as stated: the board with two
adjacent `2^62` tiles satisfies the claimed invariant hypothesis (every
non-zero value is a power of 2 at least 2), yet under the program's
wrapping int64 arithmetic a left move merges them to `-2^63`, which is
not a power of 2 — the invariant is not preserved for every invariant
board. -/
theorem C7_wrap_breaks_invariant :
    (∀ i j, boardOverflow i j ≠ 0 → IsPow2 (boardOverflow i j)) ∧
    (MoveW boardOverflow DirectionLeft 0 false).1 0 0 = -(2 ^ 63) ∧
    ¬IsPow2 ((MoveW boardOverflow DirectionLeft 0 false).1 0 0) := by
  have hval : (MoveW boardOverflow DirectionLeft 0 false).1 0 0 = -(2 ^ 63) := by
    decide
  refine ⟨?_, hval, ?_⟩
  · intro i j h
    fin_cases i <;> fin_cases j <;> first
      | exact ⟨62, by norm_num, by decide⟩
      | (exfalso; revert h; decide)
  · rw [hval]
    rintro ⟨k, -, he⟩
    have hpos : (0 : Int) < 2 ^ k := by positivity
    have hneg : -(2 ^ 63 : Int) < 0 := by norm_num
    rw [← he] at hpos
    exact absurd hpos (not_lt.mpr (le_of_lt hneg))

/-- C7, amended.  Keeping the invariant away from the int64 boundary —
every non-zero cell is `2^k` with `1 ≤ k ≤ 61`, so a merge reaches at
most `2^62` and cannot wrap — the claim holds of the wrapping engine:
after `MoveW` every non-zero cell is again a power of 2 at least 2, the
tile count grows by at most the one spawned tile, and each directional
move never increases the count before the spawn. -/
theorem C7_bounded_move_preserves_invariant (b : Board)
    (hb : ∀ i j, b i j ≠ 0 → IsPow2Bounded (b i j))
    (d : Direction) (idx : Nat) (four : Bool) :
    (∀ i j, (MoveW b d idx four).1 i j ≠ 0 → IsPow2 ((MoveW b d idx four).1 i j)) ∧
    countNZ (MoveW b d idx four).1 ≤ countNZ b + 1 ∧
    countNZ (moveUpW b).1 ≤ countNZ b ∧ countNZ (moveDownW b).1 ≤ countNZ b ∧
    countNZ (moveLeftW b).1 ≤ countNZ b ∧ countNZ (moveRightW b).1 ≤ countNZ b := by
  have hInv : ∀ i j, b i j ≠ 0 → IsPow2 (b i j) := by
    intro i j h
    obtain ⟨k, h1, h2, h3⟩ := hb i j h
    exact ⟨k, h1, h3⟩
  rw [MoveW_board_eq b hb d idx four, (moveUpW_eq b hb).1, (moveDownW_eq b hb).1,
    (moveLeftW_eq b hb).1, (moveRightW_eq b hb).1]
  exact Move_invariant_core b hInv d idx four

/-- Witness for the amended C7 at the concrete board with row
`[2,2,2,0]`, moving left with the spawn oracle placing a 2. -/
theorem C7_bounded_move_preserves_invariant_witness :
    (∀ i j, boardRow222 i j ≠ 0 → IsPow2Bounded (boardRow222 i j)) ∧
    ((∀ i j, (MoveW boardRow222 DirectionLeft 0 false).1 i j ≠ 0 →
        IsPow2 ((MoveW boardRow222 DirectionLeft 0 false).1 i j)) ∧
      countNZ (MoveW boardRow222 DirectionLeft 0 false).1 ≤ countNZ boardRow222 + 1 ∧
      countNZ (moveUpW boardRow222).1 ≤ countNZ boardRow222 ∧
      countNZ (moveDownW boardRow222).1 ≤ countNZ boardRow222 ∧
      countNZ (moveLeftW boardRow222).1 ≤ countNZ boardRow222 ∧
      countNZ (moveRightW boardRow222).1 ≤ countNZ boardRow222) := by
  have hb : ∀ i j, boardRow222 i j ≠ 0 → IsPow2Bounded (boardRow222 i j) := by
    intro i j h
    fin_cases i <;> fin_cases j <;> first
      | exact ⟨1, le_refl 1, by norm_num, by decide⟩
      | (exfalso; revert h; decide)
  exact ⟨hb, C7_bounded_move_preserves_invariant boardRow222 hb DirectionLeft 0 false⟩

/-!
## Session store model

The storage behaviour of the websocket command handlers
(`handleNewGame`, `handleMove`, `getCurrentGameState` in
`internal/websocket/handlers.go`) over the two tiers: the Redis cache
(`cache.SetGameSession`/`GetGameSession`) and the GORM store
(`CreateGame`/`UpdateGame`/`GetGame`/`GetUserActiveGame`).  The state a
handler touches is reduced to the parts the claims speak about: which
tier is written, with which expiry, and which session a read returns.
-/

/-- One storage write performed by a command handler. -/
inductive WriteEff
  | cacheWrite (ttlHours : Nat)
  | durableCreate
  | durableUpdate
deriving DecidableEq

def isDurable : WriteEff → Bool
  | .cacheWrite _ => false
  | .durableCreate => true
  | .durableUpdate => true

/-- The writes `handleNewGame` performs after building the new session:
`SetGameSession(userID, gameState, time.Hour)` when a cache is
configured, otherwise (fallback) `db.CreateGame`. -/
def handleNewGameWrites (cachePresent : Bool) : List WriteEff :=
  if cachePresent then [WriteEff.cacheWrite 1] else [WriteEff.durableCreate]

/-- The writes `handleMove` performs after an accepted move:
`SetGameSession(userID, gameState, time.Hour)` when a cache is
configured, then — only when the game has just finished
(`GameOver || Victory`) — `db.UpdateGame`, falling back to
`db.CreateGame` when the update fails (session never durably created). -/
def handleMoveWrites (cachePresent gameOver victory updateFails : Bool) :
    List WriteEff :=
  (if cachePresent then [WriteEff.cacheWrite 1] else []) ++
  (if gameOver || victory then
    (if updateFails then [WriteEff.durableUpdate, WriteEff.durableCreate]
     else [WriteEff.durableUpdate])
   else [])

/-- `models.GameState` reduced to the fields the storage claims read:
id, the two terminal flags, and the update timestamp. -/
structure Sess where
  gid : Nat
  over : Bool
  victory : Bool
  updatedAt : Nat
deriving DecidableEq

def isTerminalSess (s : Sess) : Bool := s.over || s.victory

/-- `ORDER BY updated_at DESC ... First`: the row with the greatest
`updatedAt` (the first such row on ties). -/
def pickLatest (l : List Sess) : Option Sess :=
  l.foldl (fun best s =>
    match best with
    | none => some s
    | some b => if s.updatedAt > b.updatedAt then some s else some b) none

/-- `GormDB.GetUserActiveGame`: the most recently updated row of the user
with `game_over = false AND victory = false`; absence is not an error. -/
def GetUserActiveGame (db : List Sess) : Option Sess :=
  pickLatest (db.filter (fun s => !s.over && !s.victory))

/-- `GormDB.GetGame`: row by id; a missing row is an error. -/
def GetGame (db : List Sess) (gid : Nat) : Option Sess :=
  db.find? (fun s => s.gid == gid)

/-- `Client.getCurrentGameState`: cache first (`cache` is this user's
cached session; `none` covers both a missing cache tier and a miss); on a
miss, when the client remembers no game id, `GetUserActiveGame` with a
cache write-back on a hit and `ok none` on absence; when it does remember
an id, `GetGame` by id with a write-back on success and an error on
absence.  The second component is the user's cache entry after the call. -/
def getCurrentGameState (cache : Option Sess) (gameID : Option Nat)
    (db : List Sess) : Except Unit (Option Sess) × Option Sess :=
  match cache with
  | some g => (Except.ok (some g), some g)
  | none =>
    match gameID with
    | none =>
      match GetUserActiveGame db with
      | none => (Except.ok none, none)
      | some g => (Except.ok (some g), some g)
    | some gid =>
      match GetGame db gid with
      | none => (Except.error (), none)
      | some g => (Except.ok (some g), some g)

/-- C8, counterexample to the claim as stated: on `new_game` with a cache
configured, the handler writes the new session to the cache only — no
durable-store write happens at creation, contradicting "writes it to the
durable store ... when the session is newly created". -/
theorem C8_new_game_with_cache_no_durable_write :
    handleNewGameWrites true = [WriteEff.cacheWrite 1] ∧
    (handleNewGameWrites true).all (fun e => !(isDurable e)) = true := by
  exact ⟨rfl, rfl⟩

/-- C8, amended.  Cache writes always carry the 1-hour expiry and happen
exactly when a cache is configured; durable writes happen on `new_game`
only as the no-cache fallback, and on `move` exactly when the session has
just become terminal.  No other durable write exists in the two
handlers. -/
theorem C8_write_policy (cp go v uf : Bool) :
    ((handleMoveWrites cp go v uf).any isDurable = (go || v)) ∧
    ((handleNewGameWrites cp).any isDurable = !cp) ∧
    ((handleNewGameWrites cp).contains (WriteEff.cacheWrite 1) = cp) ∧
    ((handleMoveWrites cp go v uf).contains (WriteEff.cacheWrite 1) = cp) ∧
    ((handleNewGameWrites cp ++ handleMoveWrites cp go v uf).all
      (fun e => match e with
        | WriteEff.cacheWrite t => decide (t = 1)
        | _ => true) = true) := by
  cases cp <;> cases go <;> cases v <;> cases uf <;> decide

theorem pickLatest_mem (g : Sess) :
    ∀ (l : List Sess) (acc : Option Sess),
      l.foldl (fun best s =>
        match best with
        | none => some s
        | some b => if s.updatedAt > b.updatedAt then some s else some b) acc = some g →
      acc = some g ∨ g ∈ l := by
  intro l
  induction l with
  | nil => intro acc h; exact Or.inl h
  | cons s rest ih =>
    intro acc h
    rcases ih _ h with h1 | h1
    · rcases acc with _ | b
      · simp only at h1
        injection h1 with h1
        exact Or.inr (by simp [h1])
      · simp only at h1
        by_cases hgt : s.updatedAt > b.updatedAt
        · rw [if_pos hgt] at h1
          injection h1 with h1
          exact Or.inr (by simp [h1])
        · rw [if_neg hgt] at h1
          exact Or.inl h1
    · exact Or.inr (List.mem_cons_of_mem _ h1)

theorem GetUserActiveGame_not_terminal (db : List Sess) (g : Sess)
    (h : GetUserActiveGame db = some g) : isTerminalSess g = false := by
  unfold GetUserActiveGame pickLatest at h
  rcases pickLatest_mem g _ none h with h1 | h1
  · exact absurd h1 (by simp)
  · have := List.of_mem_filter h1
    simp only [Bool.and_eq_true, Bool.not_eq_true'] at this
    simp [isTerminalSess, this.1, this.2]

/-- C9, counterexample to the claim as stated: the cache tier can hold a
terminal session (the move handler writes the finished session to the
cache), and `getCurrentGameState` returns it as-is — the claim's "every
session it returns is non-terminal" is false. -/
theorem C9_cache_hit_can_be_terminal :
    getCurrentGameState (some ⟨1, true, false, 0⟩) none []
      = (Except.ok (some ⟨1, true, false, 0⟩), some ⟨1, true, false, 0⟩) ∧
    isTerminalSess ⟨1, true, false, 0⟩ = true :=
  ⟨rfl, rfl⟩

/-- C9, amended.  The lookup is cache-first and returns any cached
session unchanged (terminal or not).  On a miss with no remembered game
id, the durable store is consulted for the user's most recently updated
non-terminal session: absence in both tiers yields the no-active-session
result (`ok none`, not an error), and a store hit — always non-terminal —
is written back into the cache before being returned.  On a miss with a
remembered game id the store is consulted by id instead: a missing row is
an error, a found row (possibly terminal) is written back and returned. -/
theorem C9_get_active_behaviour (cache : Option Sess) (gameID : Option Nat)
    (db : List Sess) :
    (∀ g, cache = some g →
      getCurrentGameState cache gameID db = (Except.ok (some g), some g)) ∧
    (cache = none → gameID = none → GetUserActiveGame db = none →
      getCurrentGameState cache gameID db = (Except.ok none, none)) ∧
    (∀ g, cache = none → gameID = none → GetUserActiveGame db = some g →
      getCurrentGameState cache gameID db = (Except.ok (some g), some g) ∧
      isTerminalSess g = false) ∧
    (∀ gid, cache = none → gameID = some gid → GetGame db gid = none →
      getCurrentGameState cache gameID db = (Except.error (), none)) ∧
    (∀ gid g, cache = none → gameID = some gid → GetGame db gid = some g →
      getCurrentGameState cache gameID db = (Except.ok (some g), some g)) := by
  refine ⟨?_, ?_, ?_, ?_, ?_⟩
  · intro g h
    subst h
    rfl
  · intro h1 h2 h3
    subst h1; subst h2
    simp [getCurrentGameState, h3]
  · intro g h1 h2 h3
    subst h1; subst h2
    exact ⟨by simp [getCurrentGameState, h3],
      GetUserActiveGame_not_terminal db g h3⟩
  · intro gid h1 h2 h3
    subst h1; subst h2
    simp [getCurrentGameState, h3]
  · intro gid g h1 h2 h3
    subst h1; subst h2
    simp [getCurrentGameState, h3]

/-- Witness for C9 at a one-row store holding an active session. -/
theorem C9_get_active_behaviour_witness :
    GetUserActiveGame [⟨2, false, false, 5⟩] = some ⟨2, false, false, 5⟩ ∧
    getCurrentGameState none none [⟨2, false, false, 5⟩]
      = (Except.ok (some ⟨2, false, false, 5⟩), some ⟨2, false, false, 5⟩) ∧
    isTerminalSess ⟨2, false, false, 5⟩ = false := by
  have hdb : GetUserActiveGame [⟨2, false, false, 5⟩] = some ⟨2, false, false, 5⟩ := rfl
  have h := (C9_get_active_behaviour none none [⟨2, false, false, 5⟩]).2.2.1
    ⟨2, false, false, 5⟩ rfl rfl hdb
  exact ⟨hdb, h.1, h.2⟩
